import Mathlib

/-!
Verification of the core components of the pecunovus node against its
natural-language specification: the transaction pool, the account lock
manager, the consensus state and engine, the PoH generator, the PoS
leader selection and the runtime executor.

The Rust sources are embedded shallowly:

* machine integers become `Nat`, with explicit wrapping (`% 2^64`) or
  saturation (`min _ U64MAX`, truncated subtraction) exactly where the
  source wraps or saturates;
* byte vectors (`Vec<u8>`) become `List Nat` (each element < 256);
* `HashMap`/`DashMap` become association lists with first-match lookup,
  `HashSet` becomes a duplicate-free list;
* `f64` priorities (`fee / size`) become exact fractions compared by
  cross multiplication; the claims proved here depend only on the
  ordering of quotients with a common divisor, which IEEE rounding
  preserves (rounding is monotone);
* async mutexes and `.await` points disappear: every embedded operation
  is the sequential body of the corresponding source function, and
  `Instant::now()` becomes an explicit logical-clock argument.
-/

namespace Pecunovus

/-- 2^32, the modulus of u32 arithmetic. -/
def M32 : Nat := 4294967296

/-- 2^64, the modulus of u64 arithmetic. -/
def M64 : Nat := 18446744073709551616

/-- u64::MAX, where saturating arithmetic clamps. -/
def U64MAX : Nat := 18446744073709551615

/-- u64::saturating_add. -/
def satAdd64 (a b : Nat) : Nat := min (a + b) U64MAX

/-- u64::saturating_sub (truncated subtraction on Nat). -/
def satSub64 (a b : Nat) : Nat := a - b

/-- u64::wrapping_add. -/
def wrapAdd64 (a b : Nat) : Nat := (a + b) % M64

/-- First-match lookup in an association list (HashMap/DashMap `get`). -/
def alookup {κ ν : Type} [DecidableEq κ] : List (κ × ν) → κ → Option ν
  | [], _ => none
  | (k', v) :: rest, k => if k = k' then some v else alookup rest k

/-- Key-membership test (HashMap `contains_key`). -/
def acontains {κ ν : Type} [DecidableEq κ] (l : List (κ × ν)) (k : κ) : Bool :=
  (alookup l k).isSome

/-- Insert-or-replace (HashMap `insert`): replaces in place, appends new keys. -/
def ainsert {κ ν : Type} [DecidableEq κ] : List (κ × ν) → κ → ν → List (κ × ν)
  | [], k, v => [(k, v)]
  | (k', v') :: rest, k, v =>
    if k = k' then (k, v) :: rest else (k', v') :: ainsert rest k v

/-- Remove a key (HashMap/DashMap `remove`); keys occur at most once. -/
def aremove {κ ν : Type} [DecidableEq κ] : List (κ × ν) → κ → List (κ × ν)
  | [], _ => []
  | (k', v') :: rest, k =>
    if k = k' then rest else (k', v') :: aremove rest k

/-- The keys of an association list. -/
def akeys {κ ν : Type} (l : List (κ × ν)) : List κ := l.map Prod.fst

/-- Little-endian byte expansion, fixed width in bytes. -/
def leBytes : Nat → Nat → List Nat
  | 0, _ => []
  | w + 1, n => (n % 256) :: leBytes w (n / 256)

/-- u64 as 8 little-endian bytes (bincode integer encoding). -/
def u64le (n : Nat) : List Nat := leBytes 8 n

/-- u64 as 8 big-endian bytes (`u64::to_be_bytes`). -/
def u64be (n : Nat) : List Nat := (leBytes 8 n).reverse

/-- UTF-8 encoding of one code point. -/
def utf8Char (c : Nat) : List Nat :=
  if c < 128 then [c]
  else if c < 2048 then
    [192 ||| (c >>> 6), 128 ||| (c &&& 63)]
  else if c < 65536 then
    [224 ||| (c >>> 12), 128 ||| ((c >>> 6) &&& 63), 128 ||| (c &&& 63)]
  else
    [240 ||| (c >>> 18), 128 ||| ((c >>> 12) &&& 63),
     128 ||| ((c >>> 6) &&& 63), 128 ||| (c &&& 63)]

/-- The UTF-8 bytes of a string (Rust `str::as_bytes`). -/
def strBytes (s : String) : List Nat :=
  s.data.foldr (fun c acc => utf8Char c.toNat ++ acc) []

/-- Lexicographic Bool-valued order on char lists by code point. For valid
UTF-8 this coincides with Rust's byte-wise `Ord` on `str`/`String`. -/
def listLeB : List Char → List Char → Bool
  | [], _ => true
  | _ :: _, [] => false
  | a :: as, b :: bs =>
    if a.toNat < b.toNat then true
    else if b.toNat < a.toNat then false
    else listLeB as bs

/-- Rust's `Ord` on `String`, as a Lean relation (code-point lexicographic,
equal to byte-wise order on valid UTF-8). -/
def keyLe (a b : String) : Prop := listLeB a.data b.data = true

instance : DecidableRel keyLe :=
  fun a b => inferInstanceAs (Decidable (listLeB a.data b.data = true))

/-- Right rotation of a 32-bit word. -/
def rotr32 (n x : Nat) : Nat := ((x >>> n) ||| (x <<< (32 - n))) % M32

/-- SHA-256 Ch function. -/
def shaCh (x y z : Nat) : Nat := (x &&& y) ^^^ ((x ^^^ (M32 - 1)) &&& z)

/-- SHA-256 Maj function. -/
def shaMaj (x y z : Nat) : Nat := (x &&& y) ^^^ (x &&& z) ^^^ (y &&& z)

/-- SHA-256 Σ0. -/
def shaS0 (x : Nat) : Nat := rotr32 2 x ^^^ rotr32 13 x ^^^ rotr32 22 x

/-- SHA-256 Σ1. -/
def shaS1 (x : Nat) : Nat := rotr32 6 x ^^^ rotr32 11 x ^^^ rotr32 25 x

/-- SHA-256 σ0. -/
def shas0 (x : Nat) : Nat := rotr32 7 x ^^^ rotr32 18 x ^^^ (x >>> 3)

/-- SHA-256 σ1. -/
def shas1 (x : Nat) : Nat := rotr32 17 x ^^^ rotr32 19 x ^^^ (x >>> 10)

/-- SHA-256 round constants (FIPS 180-4 K values, in decimal). -/
def shaK : List Nat :=
  [1116352408, 1899447441, 3049323471, 3921009573, 961987163,
   1508970993, 2453635748, 2870763221, 3624381080, 310598401,
   607225278, 1426881987, 1925078388, 2162078206, 2614888103,
   3248222580, 3835390401, 4022224774, 264347078, 604807628,
   770255983, 1249150122, 1555081692, 1996064986, 2554220882,
   2821834349, 2952996808, 3210313671, 3336571891, 3584528711,
   113926993, 338241895, 666307205, 773529912, 1294757372,
   1396182291, 1695183700, 1986661051, 2177026350, 2456956037,
   2730485921, 2820302411, 3259730800, 3345764771, 3516065817,
   3600352804, 4094571909, 275423344, 430227734, 506948616,
   659060556, 883997877, 958139571, 1322822218, 1537002063,
   1747873779, 1955562222, 2024104815, 2227730452, 2361852424,
   2428436474, 2756734187, 3204031479, 3329325298]

/-- SHA-256 initial hash state (FIPS 180-4 H values, in decimal). -/
def shaH0 : List Nat :=
  [1779033703, 3144134277, 1013904242, 2773480762,
   1359893119, 2600822924, 528734635, 1541459225]

/-- Four big-endian bytes as a 32-bit word. -/
def be32 (a b c d : Nat) : Nat := ((a * 256 + b) * 256 + c) * 256 + d

/-- Group a byte list into big-endian 32-bit words. -/
def toWords : List Nat → List Nat
  | a :: b :: c :: d :: rest => be32 a b c d :: toWords rest
  | _ => []

/-- The next message-schedule word from the words produced so far. -/
def nextW (w : List Nat) : Nat :=
  let n := w.length
  (shas1 (w.getD (n - 2) 0) + w.getD (n - 7) 0 +
   shas0 (w.getD (n - 15) 0) + w.getD (n - 16) 0) % M32

/-- Extend the 16 block words by the given number of schedule words. -/
def extendW : Nat → List Nat → List Nat
  | 0, w => w
  | f + 1, w => extendW f (w ++ [nextW w])

/-- One SHA-256 round on the 8-word working state. -/
def shaRound (st : List Nat) (k wt : Nat) : List Nat :=
  match st with
  | [a, b, c, d, e, f, g, h] =>
    let t1 := (h + shaS1 e + shaCh e f g + k + wt) % M32
    let t2 := (shaS0 a + shaMaj a b c) % M32
    [(t1 + t2) % M32, a, b, c, (d + t1) % M32, e, f, g]
  | other => other

/-- Compress one 64-byte block into the hash state. -/
def shaCompress (h : List Nat) (block : List Nat) : List Nat :=
  let w := extendW 48 (toWords block)
  let st := (shaK.zip w).foldl (fun st kw => shaRound st kw.1 kw.2) h
  List.zipWith (fun a b => (a + b) % M32) h st

/-- SHA-256 padding: 0x80, zeros, then the 64-bit big-endian bit length. -/
def shaPad (msg : List Nat) : List Nat :=
  let ml := msg.length
  let zeros := (64 - (ml + 9) % 64) % 64
  msg ++ [0x80] ++ List.replicate zeros 0 ++ u64be ((8 * ml) % M64)

/-- Split a byte list into 64-byte chunks (`fuel` bounds the recursion). -/
def chunks64 : Nat → List Nat → List (List Nat)
  | 0, _ => []
  | f + 1, l => if l.isEmpty then [] else l.take 64 :: chunks64 f (l.drop 64)

/-- A 32-bit word as 4 big-endian bytes. -/
def wordBytes (w : Nat) : List Nat := (leBytes 4 w).reverse

/-- SHA-256 of a byte list, as the 32 digest bytes. -/
def sha256 (msg : List Nat) : List Nat :=
  let padded := shaPad msg
  let h := (chunks64 padded.length padded).foldl shaCompress shaH0
  h.foldr (fun w acc => wordBytes w ++ acc) []

/-- Lowercase hex digit for a nibble. -/
def hexDigit (n : Nat) : Char :=
  if n < 10 then Char.ofNat (48 + n) else Char.ofNat (87 + n)

/-- Lowercase hex encoding of a byte list (the `hex` crate's `encode`). -/
def hexEncode (bs : List Nat) : String :=
  String.mk (bs.foldr (fun b acc => hexDigit (b / 16) :: hexDigit (b % 16) :: acc) [])

/-! ### consensus/types.rs -/

/-- Slot number (`u64` in the source; slot arithmetic never wraps). -/
abbrev Slot := Nat

/-- Epoch number. -/
abbrev Epoch := Nat

/-- Validator id: a string key. -/
abbrev ValidatorId := String

/-- A vote cast by a validator for a proposal (`types::Vote`). -/
structure Vote where
  validator : ValidatorId
  slot : Slot
  block_hash : List Nat
  signature : List Nat
deriving DecidableEq

/-- A block proposal (`types::BlockProposal`). -/
structure BlockProposal where
  proposer : ValidatorId
  slot : Slot
  block_hash : List Nat
  poh_hash : String
deriving DecidableEq

/-- A finalized block record (`types::FinalizedBlock`). -/
structure FinalizedBlock where
  slot : Slot
  block_hash : List Nat
  proposer : ValidatorId
deriving DecidableEq

/-- `types::hash_bytes`: SHA-256 of the given bytes. -/
def hashBytes (bytes : List Nat) : List Nat := sha256 bytes

/-! ### consensus/consensus_state.rs -/

/-- `ConsensusState`: pending proposals keyed by block hash, votes keyed by
block hash (voter set plus aggregated yes weight), finalized blocks in
order. -/
structure ConsensusState where
  current_epoch : Epoch
  current_slot : Slot
  total_stake : Nat
  pending_proposals : List (List Nat × BlockProposal)
  votes : List (List Nat × (List ValidatorId × Nat))
  finalized : List FinalizedBlock
deriving DecidableEq

/-- `ConsensusState::new`. -/
def ConsensusState.new : ConsensusState :=
  { current_epoch := 0, current_slot := 0, total_stake := 0,
    pending_proposals := [], votes := [], finalized := [] }

/-- `ConsensusState::next_slot`: increments the slot counter and returns it. -/
def ConsensusState.next_slot (s : ConsensusState) : Slot × ConsensusState :=
  (s.current_slot + 1, { s with current_slot := s.current_slot + 1 })

/-- `ConsensusState::insert_pending_proposal`. -/
def ConsensusState.insert_pending_proposal (s : ConsensusState) (h : List Nat)
    (p : BlockProposal) : ConsensusState :=
  { s with pending_proposals := ainsert s.pending_proposals h p }

/-- `ConsensusState::record_vote`: true when the `(validator, block_hash)`
pair is newly recorded; then the voter is added and the weight is bumped by
`saturating_add(1)`. The source first materialises the entry with
`or_insert`; a duplicate requires the voter to already be in the set, so in
the duplicate branch the entry existed and the map is unchanged. -/
def ConsensusState.record_vote (s : ConsensusState) (v : Vote) :
    Bool × ConsensusState :=
  let cur := (alookup s.votes v.block_hash).getD ([], 0)
  if v.validator ∈ cur.1 then
    (false, s)
  else
    let votes2 := ainsert s.votes v.block_hash (cur.1 ++ [v.validator], satAdd64 cur.2 1)
    (true, { s with votes := votes2 })

/-- `ConsensusState::try_finalize`: requires a votes entry, nonzero total
stake and `yes * 3 ≥ total * 2` (computed in u128 in the source; exact in
`Nat`). -/
def ConsensusState.try_finalize (s : ConsensusState) (h : List Nat) : Bool :=
  match alookup s.votes h with
  | some (_, yesWeight) =>
    if s.total_stake = 0 then false
    else decide (yesWeight * 3 ≥ s.total_stake * 2)
  | none => false

/-- `ConsensusState::has_finalized_slot`. -/
def ConsensusState.has_finalized_slot (s : ConsensusState) (slot : Slot) : Bool :=
  s.finalized.any (fun f => f.slot = slot)

/-- `ConsensusState::finalize_block`: moves a pending proposal to the
finalized list and returns it. -/
def ConsensusState.finalize_block (s : ConsensusState) (h : List Nat) :
    Option FinalizedBlock × ConsensusState :=
  match alookup s.pending_proposals h with
  | some proposal =>
    let fb : FinalizedBlock :=
      { slot := proposal.slot, block_hash := h, proposer := proposal.proposer }
    (some fb, { s with pending_proposals := aremove s.pending_proposals h,
                       finalized := s.finalized ++ [fb] })
  | none => (none, s)

/-! ### consensus/poh.rs -/

/-- `PoH` generator state. -/
structure PoH where
  seed : List Nat
  counter : Nat
  tick_ms : Nat
deriving DecidableEq

/-- `PoH::new`: 32 zero bytes of seed, counter 0. -/
def PoH.new (tick_ms : Nat) : PoH :=
  { seed := List.replicate 32 0, counter := 0, tick_ms := tick_ms }

/-- `iterations`-fold SHA-256 starting from a byte string (the loop shared
by `PoH::generate` and `PoH::verify`). -/
def iterSha : Nat → List Nat → List Nat
  | 0, h => h
  | n + 1, h => iterSha n (sha256 h)

/-- `PoH::generate`: hash `iterations` times, bump the counter (wrapping),
mix `h || be64(counter)` into the next seed, return the hex of `h`. -/
def PoH.generate (p : PoH) (iterations : Nat) : String × PoH :=
  let h := iterSha iterations p.seed
  let counter := wrapAdd64 p.counter 1
  let next_seed := sha256 (h ++ u64be counter)
  (hexEncode h, { p with counter := counter, seed := next_seed })

/-- `PoH::verify`: re-run the hash chain from the given seed and compare
with the expected hex string. -/
def PoH.verify (seed : List Nat) (iterations : Nat) (expected_hex : String) : Bool :=
  hexEncode (iterSha iterations seed) == expected_hex

/-! ### consensus/pos.rs -/

/-- `StakeInfo`. -/
structure StakeInfo where
  validator : ValidatorId
  stake : Nat
deriving DecidableEq

/-- `ProofOfStake`: the stake table, the ordered cache (sorted by validator
id) and the incrementally maintained total. -/
structure ProofOfStake where
  stakes : List (ValidatorId × Nat)
  ordered : List StakeInfo
  total : Nat
deriving DecidableEq

/-- `ProofOfStake::new`. -/
def ProofOfStake.new : ProofOfStake := { stakes := [], ordered := [], total := 0 }

/-- The comparator rebuilding `ordered`: sort by validator id (Rust string
order, i.e. `keyLe`). -/
def stakeLe (a b : StakeInfo) : Prop := keyLe a.validator b.validator

instance : DecidableRel stakeLe :=
  fun a b => inferInstanceAs (Decidable (keyLe a.validator b.validator))

/-- `ProofOfStake::register`: subtract any prior stake from the total
(saturating), replace the entry, add the new stake (saturating), rebuild
the ordered cache sorted by validator id. -/
def ProofOfStake.register (pos : ProofOfStake) (validator : ValidatorId)
    (stake : Nat) : ProofOfStake :=
  let t1 := satSub64 pos.total ((alookup pos.stakes validator).getD 0)
  let stakes := ainsert pos.stakes validator stake
  { stakes := stakes,
    ordered := List.insertionSort stakeLe
      (stakes.map fun vs => { validator := vs.1, stake := vs.2 }),
    total := satAdd64 t1 stake }

/-- `ProofOfStake::total_stake`. -/
def ProofOfStake.total_stake (pos : ProofOfStake) : Nat := pos.total

/-- A byte list read as a big-endian number (`u128::from_be_bytes` on the
first 16 digest bytes). -/
def u128be (bs : List Nat) : Nat := bs.foldl (fun acc b => acc * 256 + b) 0

/-- Walk the ordered stake list accumulating stakes; the first validator
whose running sum strictly exceeds `pick` wins. -/
def walkStakes : List StakeInfo → Nat → Nat → Option ValidatorId
  | [], _, _ => none
  | info :: rest, acc, pick =>
    if pick < acc + info.stake then some info.validator
    else walkStakes rest (acc + info.stake) pick

/-- `ProofOfStake::select_leader_with_seed`: none when empty or the total is
zero; otherwise reduce the first 16 bytes of SHA-256(seed) (big-endian u128)
modulo the total and walk the ordered list, falling back to the last
entry. -/
def ProofOfStake.select_leader_with_seed (pos : ProofOfStake) (seed : List Nat) :
    Option ValidatorId :=
  if pos.ordered.isEmpty ∨ pos.total = 0 then none
  else
    let pick := u128be ((sha256 seed).take 16) % pos.total
    match walkStakes pos.ordered 0 pick with
    | some v => some v
    | none => pos.ordered.getLast?.map StakeInfo.validator

/-- `ProofOfStake::select_leader`: round-robin over the ordered list. -/
def ProofOfStake.select_leader (pos : ProofOfStake) (slot : Nat) :
    Option ValidatorId :=
  if pos.ordered.isEmpty then none
  else (pos.ordered[slot % pos.ordered.length]?).map StakeInfo.validator

/-! ### consensus/tower.rs -/

/-- `Tower`: per-validator sets of voted slots. -/
structure Tower where
  votes_by_validator : List (ValidatorId × List Nat)
deriving DecidableEq

/-- `Tower::new`. -/
def Tower.new : Tower := { votes_by_validator := [] }

/-- `Tower::record_vote`: insert the vote's slot into the validator's slot
set. -/
def Tower.record_vote (t : Tower) (v : Vote) : Tower :=
  let cur := (alookup t.votes_by_validator v.validator).getD []
  let cur2 := if v.slot ∈ cur then cur else cur ++ [v.slot]
  { votes_by_validator := ainsert t.votes_by_validator v.validator cur2 }

/-! ### consensus/mod.rs (ConsensusEngine)

The network sender capability only emits outbound messages and never
changes engine state, so it is dropped from the embedding. -/

/-- `ConsensusEngine` without the network capability. -/
structure ConsensusEngine where
  node_id : ValidatorId
  poh : PoH
  pos : ProofOfStake
  tower : Tower
  state : ConsensusState
deriving DecidableEq

/-- `ConsensusEngine::new`. -/
def ConsensusEngine.new (node_id : ValidatorId) (poh_tick_ms : Nat) :
    ConsensusEngine :=
  { node_id := node_id, poh := PoH.new poh_tick_ms, pos := ProofOfStake.new,
    tower := Tower.new, state := ConsensusState.new }

/-- `ConsensusEngine::register_validator`: register in the PoS table and
copy the new total into the consensus state. -/
def ConsensusEngine.register_validator (e : ConsensusEngine)
    (validator : ValidatorId) (stake : Nat) : ConsensusEngine :=
  let pos := e.pos.register validator stake
  { e with pos := pos, state := { e.state with total_stake := pos.total_stake } }

/-- `ConsensusEngine::handle_vote`: record the vote; when newly recorded and
the threshold is reached, update the tower and finalize the block. -/
def ConsensusEngine.handle_vote (e : ConsensusEngine) (v : Vote) :
    ConsensusEngine :=
  let r := e.state.record_vote v
  if r.1 then
    if r.2.try_finalize v.block_hash then
      { e with tower := e.tower.record_vote v,
               state := (r.2.finalize_block v.block_hash).2 }
    else { e with state := r.2 }
  else { e with state := r.2 }

/-- `ConsensusEngine::handle_proposal`: drop when the slot is already
finalized or the hash is already pending; otherwise insert into pending and
vote for it locally. (The source also computes `pos.select_leader` into an
unused binding; the call is pure and its result is dropped.) -/
def ConsensusEngine.handle_proposal (e : ConsensusEngine) (p : BlockProposal) :
    ConsensusEngine :=
  if e.state.has_finalized_slot p.slot then e
  else if acontains e.state.pending_proposals p.block_hash then e
  else
    let st1 := e.state.insert_pending_proposal p.block_hash p
    ConsensusEngine.handle_vote { e with state := st1 }
      { validator := e.node_id, slot := p.slot,
        block_hash := p.block_hash, signature := [] }

/-- `ConsensusEngine::propose_if_leader`: generate a PoH seed (advancing the
PoH state), select the leader with it; if this node leads, allocate the next
slot, derive the placeholder block hash, insert the proposal into pending
and return it. -/
def ConsensusEngine.propose_if_leader (e : ConsensusEngine) :
    Option BlockProposal × ConsensusEngine :=
  let gen := e.poh.generate 256
  match e.pos.select_leader_with_seed (strBytes gen.1) with
  | some leader_id =>
    if leader_id = e.node_id then
      let ns := e.state.next_slot
      let block_hash := hashBytes (strBytes
        ("proposal:" ++ e.node_id ++ ":" ++ toString ns.1))
      let proposal : BlockProposal :=
        { proposer := e.node_id, slot := ns.1,
          block_hash := block_hash, poh_hash := gen.1 }
      (some proposal,
       { e with poh := gen.2,
                state := ns.2.insert_pending_proposal block_hash proposal })
    else (none, { e with poh := gen.2 })
  | none => (none, { e with poh := gen.2 })

/-! ### Step systems for the reachability claims -/

/-- The consensus-state operations named by the invariant claims. -/
inductive CSOp where
  | recordVote (v : Vote)
  | insertPending (h : List Nat) (p : BlockProposal)
  | finalizeBlock (h : List Nat)
  | nextSlot

/-- Apply one consensus-state operation (discarding returned values). -/
def CSOp.apply (s : ConsensusState) : CSOp → ConsensusState
  | .recordVote v => (s.record_vote v).2
  | .insertPending h p => s.insert_pending_proposal h p
  | .finalizeBlock h => (s.finalize_block h).2
  | .nextSlot => s.next_slot.2

/-- Run a list of consensus-state operations from `ConsensusState.new`. -/
def csRun (ops : List CSOp) : ConsensusState :=
  ops.foldl (fun s op => op.apply s) ConsensusState.new

/-- Consensus states reachable from `new` by the four operations. -/
def CSReachable (s : ConsensusState) : Prop := ∃ ops : List CSOp, s = csRun ops

/-- The engine steps named by the consensus-engine invariant claim. -/
inductive EngineOp where
  | propose
  | handleProposal (p : BlockProposal)
  | handleVote (v : Vote)

/-- Apply one engine step (discarding returned values). -/
def EngineOp.apply (e : ConsensusEngine) : EngineOp → ConsensusEngine
  | .propose => e.propose_if_leader.2
  | .handleProposal p => e.handle_proposal p
  | .handleVote v => e.handle_vote v

/-- Run an engine from `new`, after a setup phase of `register_validator`
calls, through a list of propose/handle_proposal/handle_vote steps. -/
def engineRun (node_id : ValidatorId) (tick : Nat)
    (setup : List (ValidatorId × Nat)) (ops : List EngineOp) : ConsensusEngine :=
  ops.foldl (fun e op => op.apply e)
    (setup.foldl (fun e vs => e.register_validator vs.1 vs.2)
      (ConsensusEngine.new node_id tick))

/-- Engine states reachable by propose/handle_proposal/handle_vote steps
from a freshly constructed engine after an arbitrary registration phase. -/
def EngineReachable (e : ConsensusEngine) : Prop :=
  ∃ node_id tick setup ops, e = engineRun node_id tick setup ops

/-! ### txpool/pool.rs -/

/-- Transaction id: SHA-256 digest bytes. -/
abbrev TxId := List Nat

/-- The pool's transaction model (`pool::Tx`). `from` is a Lean keyword, so
the field is `from_`. -/
structure Tx where
  from_ : String
  to_ : String
  amount : Nat
  fee : Nat
  nonce : Nat
  payload : List Nat
deriving DecidableEq

/-- `Tx::serialized`: bincode 1.x encoding — u64 little-endian lengths for
strings and byte vectors, u64 little-endian integers, fields in declaration
order. -/
def Tx.serialized (tx : Tx) : List Nat :=
  u64le (strBytes tx.from_).length ++ strBytes tx.from_ ++
  u64le (strBytes tx.to_).length ++ strBytes tx.to_ ++
  u64le tx.amount ++ u64le tx.fee ++ u64le tx.nonce ++
  u64le tx.payload.length ++ tx.payload

/-- `Tx::id`: SHA-256 of the serialized bytes. -/
def Tx.id (tx : Tx) : TxId := sha256 tx.serialized

/-- `Tx::size`: length of the serialized bytes. -/
def Tx.size (tx : Tx) : Nat := tx.serialized.length

/-- Exact value of the `f64` priority `fee / size`: the fraction
`num / den` (`den` is 1 when the size is zero). Comparisons are by cross
multiplication, the order of the exact quotients; IEEE rounding of the
source's `f64` division is monotone, so distinct quotients compare the
same way. -/
structure Priority where
  num : Nat
  den : Nat
deriving DecidableEq

/-- `Ordering` of `f64::partial_cmp` on the exact priorities. -/
def cmpPriority (a b : Priority) : Ordering :=
  if a.num * b.den < b.num * a.den then .lt
  else if b.num * a.den < a.num * b.den then .gt
  else .eq

/-- `TxMeta`; instants become logical-clock numbers. -/
structure TxMeta where
  id : TxId
  inserted_at : Nat
  priority : Priority
  last_seen : Nat
  ttl : Nat
deriving DecidableEq

/-- Internal pool entry. -/
structure TxEntry where
  tx : Tx
  meta : TxMeta
deriving DecidableEq

/-- Heap item for the priority queue. -/
structure HeapItem where
  id : TxId
  priority : Priority
  inserted_at : Nat
deriving DecidableEq

/-- `impl Ord for HeapItem` (pool.rs lines 104-110), field for field:
compare `other.priority` against `self.priority`, then break ties with
`self.inserted_at.cmp(&other.inserted_at)`. -/
def heapCmp (self other : HeapItem) : Ordering :=
  (cmpPriority other.priority self.priority).then
    (compare self.inserted_at other.inserted_at)

/-- Model of `BinaryHeap::pop`: remove a greatest element under `heapCmp`.
`BinaryHeap` leaves the choice among `cmp`-equal maxima unspecified; this
model keeps the earliest-pushed one. -/
def popMax : List HeapItem → Option (HeapItem × List HeapItem)
  | [] => none
  | a :: rest =>
    match popMax rest with
    | none => some (a, [])
    | some (m, rest2) =>
      if heapCmp a m = .lt then some (m, a :: rest2) else some (a, rest)

/-- Model of `lru::LruCache<TxId, ()>`, most-recently-used first.
`put` fronts the key and drops past-capacity (LRU) entries. -/
def lruPut (l : List TxId) (k : TxId) (cap : Nat) : List TxId :=
  (k :: l.erase k).take cap

/-- `LruCache::pop_lru`: remove and return the least-recently-used entry. -/
def lruPopLru (l : List TxId) : Option (TxId × List TxId) :=
  match l.reverse with
  | [] => none
  | v :: rest => some (v, rest.reverse)

/-- `LruCache::pop(&k)`: drop the given key. -/
def lruPop (l : List TxId) (k : TxId) : List TxId := l.erase k

/-- `TxPoolError`. -/
inductive TxPoolError where
  | Duplicate
  | PoolFull
  | Invalid
deriving DecidableEq

/-- `TxPool`: entries map, priority heap, LRU index, configuration. -/
structure TxPool where
  entries : List (TxId × TxEntry)
  heap : List HeapItem
  lru : List TxId
  lruCap : Nat
  max_size : Nat
  ttl : Nat
deriving DecidableEq

/-- `TxPool::new`. -/
def TxPool.new (max_size ttl lru_capacity : Nat) : TxPool :=
  { entries := [], heap := [], lru := [], lruCap := lru_capacity,
    max_size := max_size, ttl := ttl }

/-- `TxPool::compute_priority`: fee per serialized byte; just the fee when
the size is zero. -/
def computePriority (tx : Tx) : Priority :=
  if tx.size = 0 then { num := tx.fee, den := 1 }
  else { num := tx.fee, den := tx.size }

/-- `TxPool::evict_low_priority`: pop the LRU victim and remove it from
entries; report whether an eviction occurred. -/
def TxPool.evict_low_priority (p : TxPool) : Bool × TxPool :=
  match lruPopLru p.lru with
  | some (txid, lru2) =>
    (true, { p with entries := aremove p.entries txid, lru := lru2 })
  | none => (false, p)

/-- `TxPool::insert` at logical time `now`: reject duplicates; at capacity
attempt one LRU eviction, failing with `PoolFull` when none occurs; then
admit to entries, push on the heap and touch the LRU. -/
def TxPool.insert (p : TxPool) (tx : Tx) (now : Nat) :
    Except TxPoolError TxMeta × TxPool :=
  let txid := tx.id
  if acontains p.entries txid then (.error .Duplicate, p)
  else
    let step : Bool × TxPool :=
      if p.entries.length ≥ p.max_size then p.evict_low_priority
      else (true, p)
    if step.1 = false then (.error .PoolFull, step.2)
    else
      let p1 := step.2
      let prio := computePriority tx
      let meta : TxMeta :=
        { id := txid, inserted_at := now, priority := prio,
          last_seen := now, ttl := p.ttl }
      (.ok meta,
       { p1 with
           entries := ainsert p1.entries txid { tx := tx, meta := meta },
           heap := { id := txid, priority := prio, inserted_at := now } :: p1.heap,
           lru := lruPut p1.lru txid p1.lruCap })

/-- The loop body of `TxPool::pop_priority`: pop the heap max, collect the
transaction when its id is still in entries (removing it from entries and
the LRU index), skip stale ids, stop at the limit or on an empty heap. The
fuel argument bounds the recursion by the heap size. -/
def popLoop : Nat → List HeapItem → List (TxId × TxEntry) → List TxId →
    Nat → List Tx →
    List Tx × List HeapItem × List (TxId × TxEntry) × List TxId
  | 0, heap, entries, lru, _, selected => (selected, heap, entries, lru)
  | fuel + 1, heap, entries, lru, limit, selected =>
    if selected.length ≥ limit then (selected, heap, entries, lru)
    else
      match popMax heap with
      | none => (selected, heap, entries, lru)
      | some (item, heap2) =>
        match alookup entries item.id with
        | some entry =>
          popLoop fuel heap2 (aremove entries item.id) (lruPop lru item.id)
            limit (selected ++ [entry.tx])
        | none => popLoop fuel heap2 entries lru limit selected

/-- `TxPool::pop_priority`. -/
def TxPool.pop_priority (p : TxPool) (limit : Nat) : List Tx × TxPool :=
  let r := popLoop p.heap.length p.heap p.entries p.lru limit []
  (r.1, { p with heap := r.2.1, entries := r.2.2.1, lru := r.2.2.2 })

/-- `TxPool::get`. -/
def TxPool.get (p : TxPool) (txid : TxId) : Option Tx :=
  (alookup p.entries txid).map TxEntry.tx

/-- `TxPool::remove`. -/
def TxPool.remove (p : TxPool) (txid : TxId) : TxPool :=
  { p with entries := aremove p.entries txid, lru := lruPop p.lru txid }

/-- `TxPool::len`. -/
def TxPool.len (p : TxPool) : Nat := p.entries.length

/-- `TxPool::gc_ttl` at logical time `now` (`duration_since` saturates at
zero, as Nat subtraction does). -/
def TxPool.gc_ttl (p : TxPool) (now : Nat) : TxPool :=
  let keys := p.entries.filterMap
    (fun kv =>
      if now - kv.2.meta.inserted_at > kv.2.meta.ttl then some kv.2.meta.id
      else none)
  keys.foldl
    (fun q k => { q with entries := aremove q.entries k, lru := lruPop q.lru k })
    p

/-! ### state/account_db.rs and state/account_cache.rs -/

/-- Account key: hex string of a public key. -/
abbrev AccountKey := String

/-- `account_db::Account`. -/
structure Account where
  lamports : Nat
  owner : String
  data : List Nat
  executable : Bool
  rent_epoch : Nat
deriving DecidableEq

/-- `Account::new`. -/
def Account.new (lamports : Nat) (owner : String) (data : List Nat) : Account :=
  { lamports := lamports, owner := owner, data := data,
    executable := false, rent_epoch := 0 }

/-- `AccountCache` over an in-memory store: cached entries carry a dirty
flag; `store` is the persistent map behind it. -/
structure AccountCache where
  map : List (AccountKey × (Account × Bool))
  store : List (AccountKey × Account)
deriving DecidableEq

/-- `AccountCache::get`: cached copy if present; otherwise load from the
store, admit to the cache clean, and return the clone. -/
def AccountCache.get (c : AccountCache) (k : AccountKey) :
    Option Account × AccountCache :=
  match alookup c.map k with
  | some entry => (some entry.1, c)
  | none =>
    match alookup c.store k with
    | some acc => (some acc, { c with map := ainsert c.map k (acc, false) })
    | none => (none, c)

/-- `AccountCache::insert`: replace the cached entry and mark it dirty. -/
def AccountCache.insert (c : AccountCache) (k : AccountKey) (a : Account) :
    AccountCache :=
  { c with map := ainsert c.map k (a, true) }

/-- `AccountCache::flush`: write dirty entries back and clear their flags. -/
def AccountCache.flush (c : AccountCache) : AccountCache :=
  { map := c.map.map (fun kv => (kv.1, (kv.2.1, false))),
    store := c.map.foldl
      (fun st kv => if kv.2.2 then ainsert st kv.1 kv.2.1 else st) c.store }

/-- The account value observable at a key: the cached value if cached, else
the stored value (what `AccountCache::get` returns). -/
def AccountCache.view (c : AccountCache) (k : AccountKey) : Option Account :=
  (c.get k).1

/-! ### state/account_lock.rs -/

/-- The sequence in which `AccountLocks::acquire` obtains and awaits the
per-key mutexes: the input keys after `Vec::sort` (Rust's byte-wise order on
valid UTF-8 strings coincides with Lean's code-point order), one guard per
list element, duplicates included — the source has no deduplication step.
The sharded map (xxhash shard selection) only stores the mutexes and plays
no role in which guards are acquired or in their order. -/
def acquireOrder (keys : List AccountKey) : List AccountKey :=
  List.insertionSort keyLe keys

/-! ### runtime/executor.rs -/

/-- `executor::Transaction`. -/
structure Transaction where
  from_ : AccountKey
  to_ : AccountKey
  amount : Nat
  nonce : Nat
deriving DecidableEq

/-- `executor::Receipt`. -/
structure Receipt where
  tx : Transaction
  success : Bool
  err : Option String
  post_balances : Option (Nat × Nat)
deriving DecidableEq

/-- The per-transaction task body of `Executor::execute_transactions`
(executor.rs lines 50-81): read both accounts through the cache, default
missing ones to a zero-balance account owned by "system", check funds, and
on success deduct (saturating), credit (saturating) and write both back.
The sorted-deduplicated lock acquisition serialises conflicting
transactions and does not itself touch account state, so it drops out of
this single-transaction embedding. -/
def executeTx (c : AccountCache) (tx : Transaction) : Receipt × AccountCache :=
  let r1 := c.get tx.from_
  let r2 := r1.2.get tx.to_
  let from_acc := r1.1.getD (Account.new 0 "system" [])
  let to_acc := r2.1.getD (Account.new 0 "system" [])
  if from_acc.lamports < tx.amount then
    ({ tx := tx, success := false, err := some "insufficient funds",
       post_balances := none }, r2.2)
  else
    let from2 := { from_acc with lamports := satSub64 from_acc.lamports tx.amount }
    let to2 := { to_acc with lamports := satAdd64 to_acc.lamports tx.amount }
    let c2 := (r2.2.insert tx.from_ from2).insert tx.to_ to2
    ({ tx := tx, success := true, err := none,
       post_balances := some (from2.lamports, to2.lamports) }, c2)

/-! ### Derived views and spec-side comparison definitions -/

/-- The voter set recorded for a block hash (empty when no entry). -/
def votersOf (s : ConsensusState) (h : List Nat) : List ValidatorId :=
  ((alookup s.votes h).getD ([], 0)).1

/-- The yes weight recorded for a block hash (zero when no entry). -/
def weightOf (s : ConsensusState) (h : List Nat) : Nat :=
  ((alookup s.votes h).getD ([], 0)).2

/-- Spec-side restatement of leader selection, written from the spec's
words (§4.7): with an empty table or zero total, none; otherwise reduce the
first 16 bytes of SHA-256(seed), read big-endian, modulo the total, walk
the ordered list accumulating stake and return the first validator whose
running sum strictly exceeds the pick, the last entry as fallback. Used to
compare `ProofOfStake.select_leader_with_seed` against the spec text. -/
def specLeaderSelection (ordered : List StakeInfo) (total : Nat)
    (seed : List Nat) : Option ValidatorId :=
  if ordered = [] ∨ total = 0 then none
  else
    match walkStakes ordered 0 (u128be ((sha256 seed).take 16) % total) with
    | some v => some v
    | none => ordered.getLast?.map StakeInfo.validator

/-- Strict validator-id order on stake entries. -/
def stakeLt (a b : StakeInfo) : Prop :=
  keyLe a.validator b.validator ∧ a.validator ≠ b.validator

/-- Well-formedness of a `ProofOfStake` value as `register` maintains it:
distinct validators in the stake table, and the ordered cache is the stake
table sorted by validator id. -/
def posWF (pos : ProofOfStake) : Prop :=
  (akeys pos.stakes).Nodup ∧
  pos.ordered = List.insertionSort stakeLe
    (pos.stakes.map fun vs => { validator := vs.1, stake := vs.2 })

/-! ### Concrete scenario values used by the claim theorems -/

/-- The higher-fee transaction of the pool priority test
(`test_insert_and_pop_priority`). -/
def c1tx1 : Tx :=
  { from_ := "a", to_ := "b", amount := 10, fee := 100, nonce := 1, payload := [] }

/-- The lower-fee transaction of the pool priority test. -/
def c1tx2 : Tx :=
  { from_ := "c", to_ := "d", amount := 5, fee := 10, nonce := 1, payload := [] }

/-- The pool of the priority test after both inserts (logical times 0, 1). -/
def c1Pool : TxPool :=
  (((TxPool.new 100 60000 100).insert c1tx1 0).2.insert c1tx2 1).2

/-- The proposal of the finalization scenario. -/
def c4Proposal : BlockProposal :=
  { proposer := "alice", slot := 1, block_hash := [1, 2, 3], poh_hash := "seed" }

/-- A vote for the finalization scenario's block hash. -/
def c4Vote (v : String) : Vote :=
  { validator := v, slot := 1, block_hash := [1, 2, 3], signature := [] }

/-- The finalization scenario state: total stake 3, the proposal pending,
three votes from distinct validators recorded. -/
def c4State : ConsensusState :=
  (((({ ConsensusState.new with total_stake := 3 }).insert_pending_proposal
      [1, 2, 3] c4Proposal).record_vote (c4Vote "a")).2.record_vote
        (c4Vote "b")).2.record_vote (c4Vote "c") |>.2

/-- A consensus state whose yes weight for hash `[1]` sits at u64::MAX. -/
def c5State : ConsensusState :=
  { ConsensusState.new with votes := [([1], ([], U64MAX))] }

/-- A fresh vote for hash `[1]`. -/
def c5Vote : Vote :=
  { validator := "x", slot := 0, block_hash := [1], signature := [] }

/-- Registry built as register(a, MAX); register(b, MAX); register(a, 0):
its saturated running total ends at 0. -/
def c6RegA : ProofOfStake :=
  ((ProofOfStake.new.register "a" U64MAX).register "b" U64MAX).register "a" 0

/-- Registry built as register(a, 0); register(b, MAX): same stake table as
`c6RegA`, but its running total ends at u64::MAX. -/
def c6RegB : ProofOfStake :=
  (ProofOfStake.new.register "a" 0).register "b" U64MAX

/-- Registry register(b, 30); register(a, 50), for the determinism witness. -/
def c6RegP : ProofOfStake :=
  (ProofOfStake.new.register "b" 30).register "a" 50

/-- Registry register(a, 50); register(b, 30): the same stake table as
`c6RegP` in the other insertion order. -/
def c6RegQ : ProofOfStake :=
  (ProofOfStake.new.register "a" 50).register "b" 30

/-- The account cache of the insufficient-funds scenario: alice holds 10. -/
def c7Cache : AccountCache :=
  { map := [], store := [("alice", Account.new 10 "system" [])] }

/-- The insufficient-funds transaction: alice sends 50 to bob. -/
def c7Tx : Transaction := { from_ := "alice", to_ := "bob", amount := 50, nonce := 1 }

/-- First proposal of the consensus-engine counterexample trace: hash `[1]`
at slot 1. -/
def c3p1 : BlockProposal :=
  { proposer := "p", slot := 1, block_hash := [1], poh_hash := "x" }

/-- Second proposal of the trace: the same hash `[1]` at the fresh slot 2. -/
def c3p2 : BlockProposal :=
  { proposer := "p", slot := 2, block_hash := [1], poh_hash := "x" }

/-- Engine state after registering one unit of stake and handling `c3p1`:
hash `[1]` is finalized (the engine's own vote meets the threshold) and no
longer pending. -/
def c3Mid : ConsensusEngine :=
  engineRun "n" 10 [("v", 1)] [.handleProposal c3p1]

/-- Engine state after additionally handling `c3p2`: hash `[1]` is pending
again while still finalized. -/
def c3Bad : ConsensusEngine :=
  engineRun "n" 10 [("v", 1)] [.handleProposal c3p1, .handleProposal c3p2]

/-- The i-th distinct validator name for the long voting trace. -/
def repChar (i : Nat) : String := String.mk (List.replicate i 'a')

/-- The i-th vote of the long voting trace, all on hash `[1]`. -/
def c10Vote (i : Nat) : Vote :=
  { validator := repChar i, slot := 0, block_hash := [1], signature := [] }

/-- The first `n` votes of the long voting trace. -/
def c10Ops (n : Nat) : List CSOp :=
  (List.range n).map (fun i => CSOp.recordVote (c10Vote i))

/-- The consensus state after `n` distinct votes on hash `[1]`. -/
def c10State (n : Nat) : ConsensusState := csRun (c10Ops n)

/-- Sanity check of the SHA-256 embedding against the FIPS 180-4 vector. -/
theorem sha256_sanity_abc :
    hexEncode (sha256 (strBytes "abc")) =
      "ba7816bf8f01cfea414140de5dae2223b00361a396177a9cb410ff61f20015ad" := by
  rfl

/-- Sanity check of the SHA-256 embedding on the empty message. -/
theorem sha256_sanity_empty :
    hexEncode (sha256 []) =
      "e3b0c44298fc1c149afbf4c8996fb92427ae41e4649b934ca495991b7852b855" := by
  rfl

/-! ## Association-list lemmas -/

theorem alookup_ainsert_self {κ ν : Type} [DecidableEq κ] (l : List (κ × ν))
    (k : κ) (v : ν) : alookup (ainsert l k v) k = some v := by
  induction l with
  | nil => simp [ainsert, alookup]
  | cons kv rest ih =>
    obtain ⟨k2, v2⟩ := kv
    by_cases h : k = k2
    · simp [ainsert, alookup, h]
    · simp [ainsert, alookup, h, ih]

theorem alookup_ainsert_ne {κ ν : Type} [DecidableEq κ] (l : List (κ × ν))
    (k k2 : κ) (v : ν) (h : k2 ≠ k) :
    alookup (ainsert l k v) k2 = alookup l k2 := by
  induction l with
  | nil => simp [ainsert, alookup, h]
  | cons kv rest ih =>
    obtain ⟨k3, v3⟩ := kv
    by_cases h3 : k = k3
    · subst h3
      simp [ainsert, alookup, h]
    · by_cases h4 : k2 = k3
      · simp [ainsert, alookup, h3, h4]
      · simp [ainsert, alookup, h3, h4, ih]

theorem acontains_aremove {κ ν : Type} [DecidableEq κ] (l : List (κ × ν))
    (k h : κ) (hc : acontains (aremove l k) h = true) :
    acontains l h = true := by
  induction l with
  | nil => simpa [aremove] using hc
  | cons kv rest ih =>
    obtain ⟨k2, v2⟩ := kv
    by_cases h2 : k = k2
    · simp only [aremove, if_pos h2] at hc
      by_cases h3 : h = k2
      · simp [acontains, alookup, h3]
      · simp [acontains, alookup, h3]
        simpa [acontains] using hc
    · simp only [aremove, if_neg h2] at hc
      by_cases h3 : h = k2
      · simp [acontains, alookup, h3]
      · simp only [acontains, alookup, if_neg h3] at hc ⊢
        exact ih (by simpa [acontains] using hc)

theorem acontains_ainsert_elim {κ ν : Type} [DecidableEq κ] (l : List (κ × ν))
    (k h : κ) (v : ν) (hc : acontains (ainsert l k v) h = true) :
    h = k ∨ acontains l h = true := by
  by_cases he : h = k
  · exact Or.inl he
  · right
    rw [acontains, alookup_ainsert_ne l k h v he] at hc
    exact hc

theorem length_ainsert_of_not_contains {κ ν : Type} [DecidableEq κ]
    (l : List (κ × ν)) (k : κ) (v : ν) (h : acontains l k = false) :
    (ainsert l k v).length = l.length + 1 := by
  induction l with
  | nil => simp [ainsert]
  | cons kv rest ih =>
    obtain ⟨k2, v2⟩ := kv
    by_cases h2 : k = k2
    · simp [acontains, alookup, h2] at h
    · simp only [acontains, alookup, if_neg h2] at h
      simp [ainsert, h2, ih (by simpa [acontains] using h)]

theorem acontains_eq_false_iff {κ ν : Type} [DecidableEq κ]
    (l : List (κ × ν)) (k : κ) : acontains l k = false ↔ k ∉ akeys l := by
  induction l with
  | nil => simp [acontains, alookup, akeys]
  | cons kv rest ih =>
    obtain ⟨k2, v2⟩ := kv
    by_cases h : k = k2
    · simp [acontains, alookup, akeys, h]
    · simp only [acontains, alookup, if_neg h, akeys, List.map_cons,
        List.mem_cons]
      rw [← akeys]
      simp [acontains] at ih
      simp [ih, h]

theorem akeys_ainsert {κ ν : Type} [DecidableEq κ] (l : List (κ × ν))
    (k : κ) (v : ν) :
    akeys (ainsert l k v) =
      if acontains l k = true then akeys l else akeys l ++ [k] := by
  induction l with
  | nil => simp [ainsert, akeys, acontains, alookup]
  | cons kv rest ih =>
    obtain ⟨k2, v2⟩ := kv
    by_cases h : k = k2
    · simp [ainsert, akeys, acontains, alookup, h]
    · simp only [ainsert, if_neg h, akeys, List.map_cons, acontains, alookup]
      rw [← akeys, ← akeys, ih]
      by_cases hc : acontains rest k = true
      · simp [acontains] at hc
        simp [h, hc, acontains]
      · simp [acontains] at hc
        simp [h, hc, acontains]

theorem akeys_ainsert_nodup {κ ν : Type} [DecidableEq κ] (l : List (κ × ν))
    (k : κ) (v : ν) (h : (akeys l).Nodup) : (akeys (ainsert l k v)).Nodup := by
  rw [akeys_ainsert]
  by_cases hc : acontains l k = true
  · simpa [hc] using h
  · have hk : k ∉ akeys l :=
      (acontains_eq_false_iff l k).mp (by simpa using hc)
    simp only [hc, if_false]
    simp [List.nodup_append, h, hk]

/-! ## Order lemmas for the key comparator -/

theorem listLeB_total : ∀ a b : List Char, listLeB a b = true ∨ listLeB b a = true
  | [], _ => Or.inl rfl
  | _ :: _, [] => Or.inr rfl
  | a :: as, b :: bs => by
    by_cases h1 : a.toNat < b.toNat
    · exact Or.inl (by simp [listLeB, h1])
    · by_cases h2 : b.toNat < a.toNat
      · exact Or.inr (by simp [listLeB, h1, h2])
      · rcases listLeB_total as bs with h | h
        · exact Or.inl (by simp [listLeB, h1, h2, h])
        · exact Or.inr (by simp [listLeB, h1, h2, h])

theorem listLeB_trans : ∀ a b c : List Char,
    listLeB a b = true → listLeB b c = true → listLeB a c = true
  | [], _, _, _, _ => rfl
  | _ :: _, [], _, hab, _ => absurd hab (by simp [listLeB])
  | _ :: _, _ :: _, [], _, hbc => absurd hbc (by simp [listLeB])
  | a :: as, b :: bs, c :: cs, hab, hbc => by
    by_cases h1 : a.toNat < b.toNat
    · by_cases h2 : b.toNat < c.toNat
      · simp [listLeB, show a.toNat < c.toNat by omega]
      · by_cases h3 : c.toNat < b.toNat
        · simp [listLeB, h2, h3] at hbc
        · simp [listLeB, show a.toNat < c.toNat by omega]
    · by_cases h2 : b.toNat < a.toNat
      · simp [listLeB, h1, h2] at hab
      · have htab : listLeB as bs = true := by simpa [listLeB, h1, h2] using hab
        by_cases h3 : b.toNat < c.toNat
        · simp [listLeB, show a.toNat < c.toNat by omega]
        · by_cases h4 : c.toNat < b.toNat
          · simp [listLeB, h3, h4] at hbc
          · have htbc : listLeB bs cs = true := by
              simpa [listLeB, h3, h4] using hbc
            simp [listLeB, show ¬ a.toNat < c.toNat by omega,
              show ¬ c.toNat < a.toNat by omega,
              listLeB_trans as bs cs htab htbc]

theorem listLeB_antisymm : ∀ a b : List Char,
    listLeB a b = true → listLeB b a = true → a = b
  | [], [], _, _ => rfl
  | [], _ :: _, _, hba => absurd hba (by simp [listLeB])
  | _ :: _, [], hab, _ => absurd hab (by simp [listLeB])
  | a :: as, b :: bs, hab, hba => by
    by_cases h1 : a.toNat < b.toNat
    · simp [listLeB, h1, show ¬ b.toNat < a.toNat by omega] at hba
    · by_cases h2 : b.toNat < a.toNat
      · simp [listLeB, h1, h2] at hab
      · have heq : a.toNat = b.toNat := by omega
        have head : a = b :=
          Char.eq_of_val_eq (UInt32.eq_of_val_eq (Fin.ext heq))
        have t1 : listLeB as bs = true := by simpa [listLeB, h1, h2] using hab
        have t2 : listLeB bs as = true := by simpa [listLeB, h1, h2] using hba
        rw [head, listLeB_antisymm as bs t1 t2]

theorem keyLe_antisymm (a b : String) (h1 : keyLe a b) (h2 : keyLe b a) :
    a = b := by
  cases a with
  | mk da =>
    cases b with
    | mk db => exact congrArg String.mk (listLeB_antisymm da db h1 h2)

instance : IsTotal String keyLe := ⟨fun a b => listLeB_total a.data b.data⟩

instance : IsTrans String keyLe :=
  ⟨fun a b c => listLeB_trans a.data b.data c.data⟩

instance : IsTotal StakeInfo stakeLe :=
  ⟨fun a b => listLeB_total a.validator.data b.validator.data⟩

instance : IsTrans StakeInfo stakeLe :=
  ⟨fun a b c => listLeB_trans a.validator.data b.validator.data c.validator.data⟩

instance : IsAntisymm StakeInfo stakeLt :=
  ⟨fun a b h1 h2 => absurd (keyLe_antisymm _ _ h1.1 h2.1) h1.2⟩

/-! ## Claim C4 -/

/-- C4: `try_finalize h` is true exactly when the total stake is positive
and the recorded yes weight (zero when no votes entry exists) satisfies
`yes * 3 ≥ total_stake * 2`; in the concrete finalization scenario —
total stake 3, three votes from distinct validators on the pending
proposal's hash — `try_finalize` is true, `finalize_block` returns `some`,
and the proposal is no longer pending. -/
theorem C4_try_finalize_threshold :
    (∀ (s : ConsensusState) (h : List Nat),
        s.try_finalize h = true ↔
          0 < s.total_stake ∧ weightOf s h * 3 ≥ s.total_stake * 2) ∧
    c4State.try_finalize [1, 2, 3] = true ∧
    ((c4State.finalize_block [1, 2, 3]).1).isSome = true ∧
    acontains (c4State.finalize_block [1, 2, 3]).2.pending_proposals [1, 2, 3]
      = false := by
  refine ⟨?_, by decide, by decide, by decide⟩
  intro s h
  unfold ConsensusState.try_finalize weightOf
  cases hv : alookup s.votes h with
  | none =>
    simp only [Option.getD]
    constructor
    · intro hfalse
      cases hfalse
    · intro ⟨ht, hy⟩
      omega
  | some e =>
    obtain ⟨voters, w⟩ := e
    by_cases ht : s.total_stake = 0
    · simp [ht]
    · simp only [ht, if_false, decide_eq_true_eq, Option.getD]
      omega

/-! ## Claim C9 -/

/-- C9: `PoH::generate` returns the lowercase hex of the `n`-fold SHA-256
of the seed at call, bumps the counter (wrapping) and reseeds with
`SHA-256(h || be64(counter))`; `PoH::verify seed n e` holds exactly when
`e` is that hex string, so generate-from-seed and verify round-trip. -/
theorem C9_poh_generate_verify :
    ∀ (p : PoH) (n : Nat),
      (p.generate n).1 = hexEncode (iterSha n p.seed) ∧
      (p.generate n).2.counter = wrapAdd64 p.counter 1 ∧
      (p.generate n).2.seed =
        sha256 (iterSha n p.seed ++ u64be (wrapAdd64 p.counter 1)) ∧
      (p.generate n).2.tick_ms = p.tick_ms ∧
      PoH.verify p.seed n (hexEncode (iterSha n p.seed)) = true ∧
      (∀ e, PoH.verify p.seed n e = true ↔ e = hexEncode (iterSha n p.seed)) := by
  intro p n
  refine ⟨rfl, rfl, rfl, rfl, ?_, ?_⟩
  · unfold PoH.verify
    exact beq_self_eq_true _
  · intro e
    unfold PoH.verify
    rw [beq_iff_eq]
    exact eq_comm

/-! ## Claim C5 -/

/-- C5 counterexample: at a state whose yes weight for hash `[1]` is
u64::MAX, a fresh vote is newly recorded (`record_vote` returns true) but
the weight stays u64::MAX — it is not incremented by one unit, because the
source adds with `saturating_add`. -/
theorem C5_counterexample :
    (c5State.record_vote c5Vote).1 = true ∧
    weightOf c5State [1] = U64MAX ∧
    weightOf (c5State.record_vote c5Vote).2 [1] = U64MAX ∧
    U64MAX ≠ U64MAX + 1 := by
  refine ⟨by decide, by decide, by decide, by decide⟩

/-- C5 amended: `record_vote` returns true exactly when the
`(validator, block_hash)` pair is new; in that case it appends the voter
and bumps the weight by one unit saturating at u64::MAX; a repeated
`record_vote` with the same pair returns false and leaves the state
unchanged. -/
theorem C5_record_vote_amended :
    ∀ (s : ConsensusState) (v : Vote),
      ((s.record_vote v).1 = true ↔ v.validator ∉ votersOf s v.block_hash) ∧
      ((s.record_vote v).1 = false → (s.record_vote v).2 = s) ∧
      ((s.record_vote v).1 = true →
        votersOf (s.record_vote v).2 v.block_hash =
          votersOf s v.block_hash ++ [v.validator] ∧
        weightOf (s.record_vote v).2 v.block_hash =
          satAdd64 (weightOf s v.block_hash) 1 ∧
        ((s.record_vote v).2.record_vote v).1 = false ∧
        ((s.record_vote v).2.record_vote v).2 = (s.record_vote v).2) := by
  intro s v
  by_cases h : v.validator ∈ ((alookup s.votes v.block_hash).getD ([], 0)).1
  · unfold ConsensusState.record_vote votersOf
    simp [h]
  · unfold ConsensusState.record_vote votersOf weightOf
    simp only [h, if_neg, if_false]
    refine ⟨by simp [h], by simp, ?_⟩
    intro _
    simp [alookup_ainsert_self, h]

/-- Witness for C5: at the empty state, recording a vote is fresh, appends
the voter with weight 1, and a second identical `record_vote` returns false
leaving the state unchanged. -/
theorem C5_record_vote_amended_witness :
    votersOf (ConsensusState.new.record_vote c5Vote).2 [1] = ["x"] ∧
    weightOf (ConsensusState.new.record_vote c5Vote).2 [1] = 1 ∧
    ((ConsensusState.new.record_vote c5Vote).2.record_vote c5Vote).1 = false := by
  have h := (C5_record_vote_amended ConsensusState.new c5Vote).2.2 (by decide)
  have hb : c5Vote.block_hash = [1] := rfl
  rw [hb] at h
  refine ⟨?_, ?_, h.2.2.1⟩
  · rw [h.1]; decide
  · rw [h.2.1]; decide

/-! ## Claim C2 -/

/-- C2 counterexample: `acquire` on the duplicate key list ["a", "a"] sorts
but does not deduplicate — it obtains two guards (one per occurrence of
"a"), not exactly one per distinct key as the claim states. -/
theorem C2_counterexample :
    acquireOrder ["a", "a"] = ["a", "a"] ∧
    (["a", "a"] : List AccountKey).dedup = ["a"] ∧
    acquireOrder ["a", "a"] ≠ ["a"] := by
  refine ⟨by decide, by decide, by decide⟩

/-- C2 amended: `acquire` sorts the key list lexicographically and acquires
one per-key guard per list element, duplicates included, in that sorted
order; deduplication is the caller's responsibility (the executor dedups
before calling), and on a duplicate-free input this is exactly one guard
per distinct key in sorted order. -/
theorem C2_acquire_amended :
    ∀ keys : List AccountKey,
      List.Perm (acquireOrder keys) keys ∧
      (acquireOrder keys).Sorted keyLe ∧
      (acquireOrder keys).length = keys.length ∧
      (keys.Nodup → (acquireOrder keys).Nodup) := by
  intro keys
  refine ⟨List.perm_insertionSort _ _, List.sorted_insertionSort _ _, ?_, ?_⟩
  · exact (List.perm_insertionSort _ keys).length_eq
  · intro h
    exact ((List.perm_insertionSort _ keys).nodup_iff).mpr h

/-- Witness for C2 amended, on the duplicate-free key list ["b", "a"]. -/
theorem C2_acquire_amended_witness :
    (["b", "a"] : List AccountKey).Nodup ∧
    List.Perm (acquireOrder ["b", "a"]) ["b", "a"] ∧
    (acquireOrder ["b", "a"]).Nodup := by
  have h := C2_acquire_amended ["b", "a"]
  exact ⟨by decide, h.1, h.2.2.2 (by decide)⟩

/-! ## Claim C7 -/

/-- `AccountCache::get` never changes the observable account values: it
only admits a clean copy of a stored account into the cache. -/
theorem view_after_get (c : AccountCache) (k k2 : AccountKey) :
    ((c.get k).2).view k2 = c.view k2 := by
  unfold AccountCache.view AccountCache.get
  cases hm : alookup c.map k with
  | some e => simp
  | none =>
    cases hs : alookup c.store k with
    | none => simp
    | some acc =>
      simp only
      by_cases h2 : k2 = k
      · subst h2
        simp [alookup_ainsert_self, hm, hs]
      · rw [alookup_ainsert_ne _ _ _ _ h2]
        cases hm2 : alookup c.map k2 with
        | some e2 => simp
        | none => cases hs2 : alookup c.store k2 <;> simp

/-- `AccountCache::get` never touches the backing store. -/
theorem store_after_get (c : AccountCache) (k : AccountKey) :
    ((c.get k).2).store = c.store := by
  unfold AccountCache.get
  cases hm : alookup c.map k with
  | some e => simp
  | none =>
    cases hs : alookup c.store k with
    | none => simp
    | some acc => simp

/-- C7: when the sender's balance (defaulting a missing account to a
zero-balance system account) is below the transfer amount, the receipt is
a failure with err "insufficient funds" and no post balances, and the
transaction changes no observable account value and writes nothing to the
store. -/
theorem C7_insufficient_funds :
    ∀ (c : AccountCache) (tx : Transaction),
      ((c.get tx.from_).1.getD (Account.new 0 "system" [])).lamports
          < tx.amount →
      (executeTx c tx).1.success = false ∧
      (executeTx c tx).1.err = some "insufficient funds" ∧
      (executeTx c tx).1.post_balances = none ∧
      (∀ k, ((executeTx c tx).2).view k = c.view k) ∧
      ((executeTx c tx).2).store = c.store := by
  intro c tx hlt
  have hres : executeTx c tx =
      ({ tx := tx, success := false, err := some "insufficient funds",
         post_balances := none }, ((c.get tx.from_).2.get tx.to_).2) := by
    unfold executeTx
    simp only [if_pos hlt]
  rw [hres]
  refine ⟨rfl, rfl, rfl, ?_, ?_⟩
  · intro k
    rw [view_after_get, view_after_get]
  · rw [store_after_get, store_after_get]

/-- Witness for C7: alice holds 10 and sends 50 to bob; the receipt fails
with "insufficient funds" and both accounts read back unchanged. -/
theorem C7_insufficient_funds_witness :
    ((c7Cache.get "alice").1.getD (Account.new 0 "system" [])).lamports < 50 ∧
    (executeTx c7Cache c7Tx).1.success = false ∧
    (executeTx c7Cache c7Tx).1.err = some "insufficient funds" ∧
    ((executeTx c7Cache c7Tx).2).view "alice" = c7Cache.view "alice" ∧
    ((executeTx c7Cache c7Tx).2).view "bob" = c7Cache.view "bob" := by
  have h := C7_insufficient_funds c7Cache c7Tx (by decide)
  exact ⟨by decide, h.1, h.2.1, h.2.2.2.1 "alice", h.2.2.2.1 "bob"⟩

/-! ## Claim C1 -/

/-- C1: the pool's own priority test input — insert the fee-100 transaction
then the fee-10 transaction — pops the strictly lower-priority transaction
first: `pop_priority` returns in ascending priority order, because
`HeapItem::cmp` reverses the priority comparison while `BinaryHeap::pop`
returns its greatest element. The source's doc comment ("Returns Vec<Tx>
in descending priority order"), its `Ord` comment ("higher priority
first") and its `test_insert_and_pop_priority` test (expects the fee-100
transaction first) all say the opposite. -/
theorem C1_pop_priority_ascending_bug :
    (c1Pool.pop_priority 2).1.map Tx.from_ = ["c", "a"] ∧
    cmpPriority (computePriority c1tx2) (computePriority c1tx1) = .lt ∧
    c1Pool.get c1tx1.id = some c1tx1 ∧
    c1Pool.get c1tx2.id = some c1tx2 := by
  refine ⟨by decide, by decide, by decide, by decide⟩

/-! ## Claim C8 -/

/-- C8: for a transaction not in the pool — below capacity, insert succeeds
with the expected meta and grows `len` by exactly one, and an immediately
repeated insert of the same transaction fails with `Duplicate` leaving the
pool unchanged; at capacity, the pool attempts exactly one LRU eviction:
with no victim the insert fails with `PoolFull` (pool unchanged), and with
a victim the insert succeeds into the entries map with the victim removed. -/
theorem C8_insert_semantics :
    ∀ (p : TxPool) (tx : Tx) (now now2 : Nat),
      acontains p.entries tx.id = false →
      ((p.entries.length < p.max_size →
        (p.insert tx now).1 = .ok
          { id := tx.id, inserted_at := now, priority := computePriority tx,
            last_seen := now, ttl := p.ttl } ∧
        (p.insert tx now).2.len = p.len + 1 ∧
        ((p.insert tx now).2.insert tx now2).1 = .error .Duplicate ∧
        ((p.insert tx now).2.insert tx now2).2 = (p.insert tx now).2) ∧
      (p.entries.length ≥ p.max_size →
        (lruPopLru p.lru = none →
          (p.insert tx now).1 = .error .PoolFull ∧ (p.insert tx now).2 = p) ∧
        (∀ victim lru2, lruPopLru p.lru = some (victim, lru2) →
          (p.insert tx now).1 = .ok
            { id := tx.id, inserted_at := now, priority := computePriority tx,
              last_seen := now, ttl := p.ttl } ∧
          (p.insert tx now).2.entries =
            ainsert (aremove p.entries victim) tx.id
              { tx := tx,
                meta := { id := tx.id, inserted_at := now,
                          priority := computePriority tx, last_seen := now,
                          ttl := p.ttl } }))) := by
  intro p tx now now2 hnc
  constructor
  · intro hlt
    have hge : ¬ p.entries.length ≥ p.max_size := by omega
    have hins : p.insert tx now =
        (.ok { id := tx.id, inserted_at := now, priority := computePriority tx,
               last_seen := now, ttl := p.ttl },
         { p with
             entries := ainsert p.entries tx.id
               { tx := tx,
                 meta := { id := tx.id, inserted_at := now,
                           priority := computePriority tx, last_seen := now,
                           ttl := p.ttl } },
             heap := { id := tx.id, priority := computePriority tx,
                       inserted_at := now } :: p.heap,
             lru := lruPut p.lru tx.id p.lruCap }) := by
      unfold TxPool.insert
      simp [hnc, hge]
    refine ⟨by rw [hins], ?_, ?_, ?_⟩
    · rw [hins]
      exact length_ainsert_of_not_contains p.entries tx.id _ hnc
    · rw [hins]
      unfold TxPool.insert
      simp [acontains, alookup_ainsert_self]
    · rw [hins]
      unfold TxPool.insert
      simp [acontains, alookup_ainsert_self]
  · intro hge
    constructor
    · intro hlru
      have hins : p.insert tx now = (.error .PoolFull, p) := by
        unfold TxPool.insert TxPool.evict_low_priority
        simp [hnc, hge, hlru]
      exact ⟨by rw [hins], by rw [hins]⟩
    · intro victim lru2 hlru
      have hins : p.insert tx now =
          (.ok { id := tx.id, inserted_at := now,
                 priority := computePriority tx, last_seen := now,
                 ttl := p.ttl },
           { p with
               entries := ainsert (aremove p.entries victim) tx.id
                 { tx := tx,
                   meta := { id := tx.id, inserted_at := now,
                             priority := computePriority tx, last_seen := now,
                             ttl := p.ttl } },
               heap := { id := tx.id, priority := computePriority tx,
                         inserted_at := now } :: p.heap,
               lru := lruPut lru2 tx.id p.lruCap }) := by
        unfold TxPool.insert TxPool.evict_low_priority
        simp [hnc, hge, hlru]
      exact ⟨by rw [hins], by rw [hins]⟩

/-- Witness for C8: inserting a transaction into an empty pool of capacity
2 succeeds, makes `len` 1, and an immediate duplicate insert fails. -/
theorem C8_insert_semantics_witness :
    acontains (TxPool.new 2 60 2).entries c1tx1.id = false ∧
    (TxPool.new 2 60 2).entries.length < (TxPool.new 2 60 2).max_size ∧
    ((TxPool.new 2 60 2).insert c1tx1 0).2.len = 1 ∧
    (((TxPool.new 2 60 2).insert c1tx1 0).2.insert c1tx1 1).1 =
      .error .Duplicate := by
  have h := (C8_insert_semantics (TxPool.new 2 60 2) c1tx1 0 1 rfl).1
    (by decide)
  exact ⟨rfl, by decide, h.2.1, h.2.2.1⟩

/-! ## Claim C6 -/

/-- `select_leader_with_seed` computes exactly the spec's described
algorithm from the ordered cache and the cached total. -/
theorem select_eq_spec (pos : ProofOfStake) (seed : List Nat) :
    pos.select_leader_with_seed seed =
      specLeaderSelection pos.ordered pos.total seed := by
  unfold ProofOfStake.select_leader_with_seed specLeaderSelection
  simp only [List.isEmpty_iff]

/-- A stake list sorted by validator id with duplicate-free validators is
sorted strictly. -/
theorem sorted_stakeLt_of_sorted_nodup (l : List StakeInfo)
    (hs : l.Sorted stakeLe) (hn : (l.map StakeInfo.validator).Nodup) :
    l.Sorted stakeLt := by
  have hp : l.Pairwise (fun a b => a.validator ≠ b.validator) :=
    List.pairwise_map.mp hn
  exact (hs.and hp).imp (fun h => ⟨h.1, h.2⟩)

/-- Two permutation-equal stake lists with duplicate-free validators sort
to the same ordered list. -/
theorem insertionSort_eq_of_perm (l1 l2 : List StakeInfo)
    (hp : List.Perm l1 l2) (hn : (l1.map StakeInfo.validator).Nodup) :
    List.insertionSort stakeLe l1 = List.insertionSort stakeLe l2 := by
  have q1 := List.perm_insertionSort stakeLe l1
  have q2 := List.perm_insertionSort stakeLe l2
  have hperm : List.Perm (List.insertionSort stakeLe l1)
      (List.insertionSort stakeLe l2) := q1.trans (hp.trans q2.symm)
  have hn1 : ((List.insertionSort stakeLe l1).map StakeInfo.validator).Nodup :=
    ((q1.map StakeInfo.validator).nodup_iff).mpr hn
  have hn2 : ((List.insertionSort stakeLe l2).map StakeInfo.validator).Nodup :=
    ((hperm.map StakeInfo.validator).nodup_iff).mp hn1
  exact List.eq_of_perm_of_sorted hperm
    (sorted_stakeLt_of_sorted_nodup _ (List.sorted_insertionSort _ _) hn1)
    (sorted_stakeLt_of_sorted_nodup _ (List.sorted_insertionSort _ _) hn2)

/-- A fresh registry is well-formed. -/
theorem posWF_new : posWF ProofOfStake.new := ⟨List.nodup_nil, rfl⟩

/-- `register` preserves registry well-formedness. -/
theorem posWF_register (pos : ProofOfStake) (v : ValidatorId) (st : Nat)
    (h : posWF pos) : posWF (pos.register v st) :=
  ⟨akeys_ainsert_nodup _ _ _ h.1, rfl⟩

/-- Well-formed registries holding permutation-equal stake tables and the
same cached total select the same leader for every seed. -/
theorem select_deterministic (p q : ProofOfStake) (seed : List Nat)
    (hp : posWF p) (hq : posWF q) (hperm : List.Perm p.stakes q.stakes)
    (htot : p.total = q.total) :
    p.select_leader_with_seed seed = q.select_leader_with_seed seed := by
  have hmaps : ((p.stakes.map (fun vs =>
      ({ validator := vs.1, stake := vs.2 } : StakeInfo))).map
        StakeInfo.validator).Nodup := by
    rw [List.map_map]
    exact hp.1
  have hord : p.ordered = q.ordered := by
    rw [hp.2, hq.2]
    exact insertionSort_eq_of_perm _ _ (hperm.map _) hmaps
  unfold ProofOfStake.select_leader_with_seed
  rw [hord, htot]

set_option maxRecDepth 4000 in
/-- C6 counterexample: two registries holding the same stake table but
built through different register histories disagree on the leader, because
the saturated running total desynchronises from the stake table: registry
A (register a=MAX, b=MAX, then a=0) ends with total 0 and selects no
leader, registry B (register a=0, b=MAX) ends with total MAX and selects
"b" — so the leader is not a pure function of (stakes, seed). -/
theorem C6_counterexample :
    c6RegA.stakes = c6RegB.stakes ∧
    c6RegA.select_leader_with_seed (strBytes "s") = none ∧
    c6RegB.select_leader_with_seed (strBytes "s") = some "b" := by
  refine ⟨by decide, by decide, by decide⟩

/-- C6 amended: `select_leader_with_seed` returns none when the table is
empty or the cached total is zero, and otherwise implements exactly the
spec's pick-and-walk algorithm (first 16 bytes of SHA-256(seed) big-endian
mod total; first validator whose running stake sum strictly exceeds the
pick; last entry as fallback); it is a pure function of the ordered stake
table, the cached total and the seed, so two registries holding the same
stake table AND the same cached total yield the same leader for the same
seed. (Same stake table alone does not suffice: saturation can make equal
tables carry different totals.) -/
theorem C6_leader_selection_amended :
    (∀ (pos : ProofOfStake) (seed : List Nat),
        pos.select_leader_with_seed seed =
          specLeaderSelection pos.ordered pos.total seed) ∧
    (posWF ProofOfStake.new ∧
      ∀ (pos : ProofOfStake) (v : ValidatorId) (st : Nat),
        posWF pos → posWF (pos.register v st)) ∧
    (∀ (p q : ProofOfStake) (seed : List Nat),
        posWF p → posWF q → List.Perm p.stakes q.stakes → p.total = q.total →
        p.select_leader_with_seed seed = q.select_leader_with_seed seed) :=
  ⟨select_eq_spec, ⟨posWF_new, posWF_register⟩, select_deterministic⟩

/-- Witness for C6 amended: the registries register(b,30);register(a,50)
and register(a,50);register(b,30) hold the same stake table and total and
select the same leader. -/
theorem C6_leader_selection_amended_witness :
    posWF c6RegP ∧ posWF c6RegQ ∧ List.Perm c6RegP.stakes c6RegQ.stakes ∧
    c6RegP.total = c6RegQ.total ∧
    c6RegP.select_leader_with_seed (strBytes "s") =
      c6RegQ.select_leader_with_seed (strBytes "s") := by
  have h1 : posWF c6RegP := ⟨by decide, rfl⟩
  have h2 : posWF c6RegQ := ⟨by decide, rfl⟩
  have hsp : c6RegP.stakes = [("b", 30), ("a", 50)] := by decide
  have hsq : c6RegQ.stakes = [("a", 50), ("b", 30)] := by decide
  have hperm : List.Perm c6RegP.stakes c6RegQ.stakes := by
    rw [hsp, hsq]
    exact List.Perm.swap _ _ _
  refine ⟨h1, h2, hperm, by decide, ?_⟩
  exact C6_leader_selection_amended.2.2 c6RegP c6RegQ (strBytes "s")
    h1 h2 hperm (by decide)

/-! ## Claim C3 -/

/-- `record_vote` touches only the votes map. -/
theorem record_vote_pending (s : ConsensusState) (v : Vote) :
    (s.record_vote v).2.pending_proposals = s.pending_proposals := by
  unfold ConsensusState.record_vote
  by_cases h : v.validator ∈ ((alookup s.votes v.block_hash).getD ([], 0)).1 <;>
    simp [h]

/-- `record_vote` leaves the finalized list unchanged. -/
theorem record_vote_finalized (s : ConsensusState) (v : Vote) :
    (s.record_vote v).2.finalized = s.finalized := by
  unfold ConsensusState.record_vote
  by_cases h : v.validator ∈ ((alookup s.votes v.block_hash).getD ([], 0)).1 <;>
    simp [h]

/-- `finalize_block` only appends to the finalized list. -/
theorem finalize_block_finalized (s : ConsensusState) (h : List Nat) :
    ∃ t, (s.finalize_block h).2.finalized = s.finalized ++ t := by
  unfold ConsensusState.finalize_block
  cases hl : alookup s.pending_proposals h with
  | some prop => exact ⟨_, rfl⟩
  | none => exact ⟨[], by simp⟩

/-- `finalize_block` only removes from pending. -/
theorem finalize_block_pending_sub (s : ConsensusState) (h h2 : List Nat)
    (hc : acontains (s.finalize_block h).2.pending_proposals h2 = true) :
    acontains s.pending_proposals h2 = true := by
  unfold ConsensusState.finalize_block at hc
  cases hl : alookup s.pending_proposals h with
  | some prop =>
    rw [hl] at hc
    exact acontains_aremove _ _ _ hc
  | none =>
    rw [hl] at hc
    exact hc

/-- `handle_vote` never adds to pending. -/
theorem handle_vote_pending_sub (e : ConsensusEngine) (v : Vote)
    (h2 : List Nat)
    (hc : acontains (e.handle_vote v).state.pending_proposals h2 = true) :
    acontains e.state.pending_proposals h2 = true := by
  simp only [ConsensusEngine.handle_vote] at hc
  have hpend := record_vote_pending e.state v
  by_cases hf : (e.state.record_vote v).1 = true
  · rw [if_pos hf] at hc
    by_cases htf : (e.state.record_vote v).2.try_finalize v.block_hash = true
    · rw [if_pos htf] at hc
      have := finalize_block_pending_sub _ _ _ hc
      rwa [hpend] at this
    · rw [if_neg htf] at hc
      rwa [hpend] at hc
  · rw [if_neg hf] at hc
    rwa [hpend] at hc

/-- `handle_vote` only appends to the finalized list. -/
theorem handle_vote_finalized (e : ConsensusEngine) (v : Vote) :
    ∃ t, (e.handle_vote v).state.finalized = e.state.finalized ++ t := by
  simp only [ConsensusEngine.handle_vote]
  have hfin := record_vote_finalized e.state v
  by_cases hf : (e.state.record_vote v).1 = true
  · rw [if_pos hf]
    by_cases htf : (e.state.record_vote v).2.try_finalize v.block_hash = true
    · rw [if_pos htf]
      obtain ⟨t, ht⟩ :=
        finalize_block_finalized (e.state.record_vote v).2 v.block_hash
      exact ⟨t, by rw [ht, hfin]⟩
    · rw [if_neg htf]
      exact ⟨[], by rw [hfin, List.append_nil]⟩
  · rw [if_neg hf]
    exact ⟨[], by rw [hfin, List.append_nil]⟩

/-- `propose_if_leader` leaves the finalized list unchanged. -/
theorem propose_finalized (e : ConsensusEngine) :
    (e.propose_if_leader).2.state.finalized = e.state.finalized := by
  simp only [ConsensusEngine.propose_if_leader]
  cases hm : e.pos.select_leader_with_seed (strBytes (e.poh.generate 256).1) with
  | none => rfl
  | some leader =>
    dsimp only
    by_cases hl : leader = e.node_id
    · rw [if_pos hl]
      rfl
    · rw [if_neg hl]


/-- `handle_proposal` only appends to the finalized list. -/
theorem handle_proposal_finalized (e : ConsensusEngine) (p : BlockProposal) :
    ∃ t, (e.handle_proposal p).state.finalized = e.state.finalized ++ t := by
  unfold ConsensusEngine.handle_proposal
  by_cases hfs : e.state.has_finalized_slot p.slot = true
  · rw [if_pos hfs]
    exact ⟨[], (List.append_nil _).symm⟩
  · rw [if_neg hfs]
    by_cases hpend : acontains e.state.pending_proposals p.block_hash = true
    · rw [if_pos hpend]
      exact ⟨[], (List.append_nil _).symm⟩
    · rw [if_neg hpend]
      exact handle_vote_finalized _ _

/-- C3 counterexample: in the engine reachable by registering one unit of
stake and handling two proposals carrying the same block hash `[1]` at
slots 1 and 2, the hash `[1]` is simultaneously a pending key and a
finalized block hash; the intermediate state shows it had already been
finalized (and unpended) before the second proposal re-pended it. -/
theorem C3_counterexample :
    EngineReachable c3Bad ∧
    c3Mid.state.finalized.map FinalizedBlock.block_hash = [[1]] ∧
    acontains c3Mid.state.pending_proposals [1] = false ∧
    acontains c3Bad.state.pending_proposals [1] = true ∧
    c3Bad.state.finalized.map FinalizedBlock.block_hash = [[1]] := by
  refine ⟨⟨"n", 10, [("v", 1)], [.handleProposal c3p1, .handleProposal c3p2],
    rfl⟩, by decide, by decide, by decide, by decide⟩

/-- C3 amended: `handle_proposal` inserts into pending only a proposal
whose slot is not yet finalized and whose block hash is not currently
pending, and every engine step only appends to the finalized sequence;
however the guard checks the finalized SLOT, not the hash, so a block hash
already in `finalized` is re-inserted into `pending_proposals` by a later
proposal carrying the same hash under a not-yet-finalized slot — the
hash-level pending/finalized exclusivity and no-re-pend invariants do not
hold. -/
theorem C3_pending_finalized_amended :
    (∀ (e : ConsensusEngine) (p : BlockProposal) (h2 : List Nat),
        acontains (e.handle_proposal p).state.pending_proposals h2 = true →
        acontains e.state.pending_proposals h2 = true ∨
          (h2 = p.block_hash ∧ e.state.has_finalized_slot p.slot = false ∧
           acontains e.state.pending_proposals h2 = false)) ∧
    (∀ (e : ConsensusEngine) (op : EngineOp),
        ∃ t, (op.apply e).state.finalized = e.state.finalized ++ t) := by
  constructor
  · intro e p h2 hc
    unfold ConsensusEngine.handle_proposal at hc
    by_cases hfs : e.state.has_finalized_slot p.slot = true
    · simp only [hfs, if_true] at hc
      exact Or.inl hc
    · by_cases hpend : acontains e.state.pending_proposals p.block_hash = true
      · simp only [hfs, hpend, if_true, if_false] at hc
        exact Or.inl hc
      · simp only [hfs, hpend, if_false] at hc
        have hsub := handle_vote_pending_sub _ _ _ hc
        simp only [ConsensusState.insert_pending_proposal] at hsub
        rcases acontains_ainsert_elim _ _ _ _ hsub with he | he
        · subst he
          right
          refine ⟨rfl, by simpa using hfs, by simpa using hpend⟩
        · exact Or.inl he
  · intro e op
    cases op with
    | propose =>
      refine ⟨[], ?_⟩
      show (e.propose_if_leader).2.state.finalized = e.state.finalized ++ []
      rw [propose_finalized, List.append_nil]
    | handleProposal p => exact handle_proposal_finalized e p
    | handleVote v => exact handle_vote_finalized e v

/-- Witness for C3 amended: handling a fresh proposal on an unregistered
engine pends exactly its hash, via the right disjunct of the guard
property. -/
theorem C3_pending_finalized_amended_witness :
    acontains ((ConsensusEngine.new "n" 10).handle_proposal
      c3p1).state.pending_proposals [1] = true ∧
    (acontains (ConsensusEngine.new "n" 10).state.pending_proposals [1] = true ∨
      ([1] = c3p1.block_hash ∧
       (ConsensusEngine.new "n" 10).state.has_finalized_slot c3p1.slot = false ∧
       acontains (ConsensusEngine.new "n" 10).state.pending_proposals [1]
         = false)) := by
  refine ⟨by decide, ?_⟩
  exact C3_pending_finalized_amended.1 (ConsensusEngine.new "n" 10) c3p1 [1]
    (by decide)

/-! ## Claim C10 -/

/-- `record_vote` either leaves the votes map alone (duplicate) or replaces
the voted hash's entry with the appended voter set and the saturated
weight. -/
theorem record_vote_votes (s : ConsensusState) (v : Vote) :
    (s.record_vote v).2.votes = s.votes ∨
    (s.record_vote v).2.votes =
      ainsert s.votes v.block_hash
        (votersOf s v.block_hash ++ [v.validator],
         satAdd64 (weightOf s v.block_hash) 1) := by
  unfold ConsensusState.record_vote votersOf weightOf
  by_cases hmem : v.validator ∈ ((alookup s.votes v.block_hash).getD ([], 0)).1
  · left
    simp [hmem]
  · right
    simp [hmem]

/-- One consensus-state operation preserves the weight/cardinality
invariant (weight = voter count saturated at u64::MAX). -/
theorem csInv_apply (s : ConsensusState) (op : CSOp)
    (hinv : ∀ h voters w, alookup s.votes h = some (voters, w) →
      w = min voters.length U64MAX) :
    ∀ h voters w, alookup (op.apply s).votes h = some (voters, w) →
      w = min voters.length U64MAX := by
  cases op with
  | insertPending h p =>
    intro h2 voters w hl
    exact hinv h2 voters w hl
  | nextSlot =>
    intro h2 voters w hl
    exact hinv h2 voters w hl
  | finalizeBlock h =>
    intro h2 voters w hl
    apply hinv h2 voters w
    have : (s.finalize_block h).2.votes = s.votes := by
      unfold ConsensusState.finalize_block
      cases hp : alookup s.pending_proposals h <;> simp
    rwa [show (CSOp.finalizeBlock h).apply s = (s.finalize_block h).2 from rfl,
      this] at hl
  | recordVote v =>
    intro h2 voters w hl
    rcases record_vote_votes s v with hv | hv
    · apply hinv h2 voters w
      rwa [show (CSOp.recordVote v).apply s = (s.record_vote v).2 from rfl,
        hv] at hl
    · rw [show (CSOp.recordVote v).apply s = (s.record_vote v).2 from rfl,
        hv] at hl
      by_cases he : h2 = v.block_hash
      · rw [he] at hl
        rw [alookup_ainsert_self] at hl
        have hp := Option.some.inj hl
        have hv1 : votersOf s v.block_hash ++ [v.validator] = voters :=
          congrArg Prod.fst hp
        have hv2 : satAdd64 (weightOf s v.block_hash) 1 = w :=
          congrArg Prod.snd hp
        rw [← hv1, ← hv2]
        cases hlk : alookup s.votes v.block_hash with
        | none =>
          have hvot : votersOf s v.block_hash = [] := by simp [votersOf, hlk]
          have hwt : weightOf s v.block_hash = 0 := by simp [weightOf, hlk]
          rw [hvot, hwt]
          simp [satAdd64]
        | some e =>
          obtain ⟨vs, w0⟩ := e
          have hw0 := hinv v.block_hash vs w0 hlk
          have hvot : votersOf s v.block_hash = vs := by simp [votersOf, hlk]
          have hwt : weightOf s v.block_hash = w0 := by simp [weightOf, hlk]
          rw [hvot, hwt, hw0]
          simp only [satAdd64, List.length_append, List.length_singleton]
          unfold U64MAX
          omega
      · apply hinv h2 voters w
        rwa [alookup_ainsert_ne _ _ _ _ he] at hl

/-- Every reachable consensus state satisfies the weight/cardinality
invariant. -/
theorem csRun_inv (ops : List CSOp) :
    ∀ h voters w, alookup (csRun ops).votes h = some (voters, w) →
      w = min voters.length U64MAX := by
  have H : ∀ (l : List CSOp) (s : ConsensusState),
      (∀ h voters w, alookup s.votes h = some (voters, w) →
        w = min voters.length U64MAX) →
      ∀ h voters w,
        alookup (l.foldl (fun s op => op.apply s) s).votes h
          = some (voters, w) → w = min voters.length U64MAX := by
    intro l
    induction l with
    | nil => intro s hs; simpa using hs
    | cons op rest ih =>
      intro s hs
      exact ih _ (csInv_apply s op hs)
  apply H ops ConsensusState.new
  intro h voters w hl
  simp [ConsensusState.new, alookup] at hl

/-- `repChar` is injective (distinct lengths). -/
theorem repChar_inj {i j : Nat} (h : repChar i = repChar j) : i = j := by
  have h2 : (repChar i).data.length = (repChar j).data.length := by rw [h]
  simpa [repChar] using h2

/-- The votes map after `n + 1` distinct votes on hash `[1]`: all voters
collected, weight saturated at u64::MAX. -/
theorem c10State_votes : ∀ n : Nat,
    (c10State (n + 1)).votes =
      [([1], ((List.range (n + 1)).map repChar, min (n + 1) U64MAX))] := by
  intro n
  induction n with
  | zero => decide
  | succ n ih =>
    have hops : c10Ops (n + 1 + 1) =
        c10Ops (n + 1) ++ [CSOp.recordVote (c10Vote (n + 1))] := by
      unfold c10Ops
      rw [List.range_succ, List.map_append]
      rfl
    have hrun : c10State (n + 1 + 1) =
        CSOp.apply (c10State (n + 1)) (CSOp.recordVote (c10Vote (n + 1))) := by
      unfold c10State csRun
      rw [hops, List.foldl_append]
      rfl
    have hlk : alookup (c10State (n + 1)).votes [1] =
        some ((List.range (n + 1)).map repChar, min (n + 1) U64MAX) := by
      rw [ih]
      simp [alookup]
    have hmem : (c10Vote (n + 1)).validator ∉
        ((alookup (c10State (n + 1)).votes (c10Vote (n + 1)).block_hash).getD
          ([], 0)).1 := by
      rw [show (c10Vote (n + 1)).block_hash = [1] from rfl, hlk]
      intro hm
      obtain ⟨i, hi, he⟩ := List.mem_map.mp hm
      have hij : i = n + 1 := repChar_inj he
      rw [hij] at hi
      exact absurd (List.mem_range.mp hi) (by omega)
    rw [hrun,
      show CSOp.apply (c10State (n + 1)) (CSOp.recordVote (c10Vote (n + 1)))
        = ((c10State (n + 1)).record_vote (c10Vote (n + 1))).2 from rfl]
    unfold ConsensusState.record_vote
    rw [if_neg hmem]
    rw [show (c10Vote (n + 1)).block_hash = [1] from rfl, hlk]
    rw [ih]
    have hvoters : (List.range (n + 1)).map repChar ++ [repChar (n + 1)] =
        (List.range (n + 1 + 1)).map repChar := by
      conv_rhs => rw [List.range_succ, List.map_append]
      rfl
    have hwt : satAdd64 (min (n + 1) U64MAX) 1 = min (n + 1 + 1) U64MAX := by
      simp only [satAdd64]
      unfold U64MAX
      omega
    simp only [Option.getD,
      show (c10Vote (n + 1)).validator = repChar (n + 1) from rfl,
      hvoters, hwt, ainsert]
    simp

/-- C10 counterexample: after 2^64 distinct votes on hash `[1]` — a
reachable consensus state — the voter set has 2^64 members while the
saturated yes weight is u64::MAX = 2^64 - 1, so the weight does not equal
the voter-set cardinality. -/
theorem C10_counterexample :
    CSReachable (c10State M64) ∧
    (alookup (c10State M64).votes [1]).map
      (fun e => (e.1.length, e.2)) = some (M64, U64MAX) ∧
    M64 ≠ U64MAX := by
  refine ⟨⟨c10Ops M64, rfl⟩, ?_, by decide⟩
  have hm : M64 = U64MAX + 1 := by decide
  rw [hm, c10State_votes U64MAX]
  simp [alookup, min_eq_right (show U64MAX ≤ U64MAX + 1 by omega)]

/-- C10 amended: in every consensus state reachable from `new` by
record_vote / insert_pending_proposal / finalize_block / next_slot, the
stored yes weight of every votes entry equals the voter-set cardinality
saturated at u64::MAX (they agree until 2^64 voters), so `try_finalize`
effectively compares the (saturated) number of distinct voters — not their
stake — against `total_stake`. -/
theorem C10_vote_weight_amended :
    ∀ s : ConsensusState, CSReachable s →
      (∀ h voters w, alookup s.votes h = some (voters, w) →
        w = min voters.length U64MAX) ∧
      (∀ h, s.try_finalize h =
        decide (0 < s.total_stake ∧
          min (votersOf s h).length U64MAX * 3 ≥ s.total_stake * 2)) := by
  intro s hs
  obtain ⟨ops, rfl⟩ := hs
  refine ⟨csRun_inv ops, ?_⟩
  intro h
  unfold ConsensusState.try_finalize votersOf
  cases hv : alookup (csRun ops).votes h with
  | none =>
    dsimp only
    have hne : ¬ (0 < (csRun ops).total_stake ∧
        min ([] : List ValidatorId).length U64MAX * 3
          ≥ (csRun ops).total_stake * 2) := by
      simp only [List.length_nil, Nat.min_eq_left (Nat.zero_le _)]
      omega
    exact (decide_eq_false hne).symm
  | some e =>
    obtain ⟨voters, w⟩ := e
    have hw := csRun_inv ops h voters w hv
    dsimp only
    by_cases ht : (csRun ops).total_stake = 0
    · rw [if_pos ht, ht]
      simp
    · rw [if_neg ht, hw]
      refine (decide_eq_decide.mpr ?_).symm
      simp only [Option.getD_some]
      omega

/-- Witness for C10 amended: the state after one vote is reachable, its
votes entry for hash `[1]` is `([""], 1)`, and the amended invariant gives
`1 = min 1 u64::MAX` there. -/
theorem C10_vote_weight_amended_witness :
    CSReachable (c10State 1) ∧
    alookup (c10State 1).votes [1] = some ([""], 1) ∧
    (1 : Nat) = min ([""] : List ValidatorId).length U64MAX := by
  refine ⟨⟨c10Ops 1, rfl⟩, by decide, ?_⟩
  exact (C10_vote_weight_amended (c10State 1) ⟨c10Ops 1, rfl⟩).1 [1] [""] 1
    (by decide)

end Pecunovus
